import Mathlib

/-!
Verification of the core CSV-transform logic of the Qualtrics survey-response
extractor (`QualtricsSurveyResponseExtractor.py`): cleaning of exported rows,
header normalization, multi-table merge, and CSV (de)serialization.

The Python `csv` module (excel dialect, `lineterminator="\n"`, reading from
`io.StringIO`) is embedded as an explicit character-level state machine
(`runCsv`) matching the standard reader states; the writer (`writeRecord`)
quotes a field exactly when it contains the delimiter, the quote character or
the line terminator, doubling embedded quotes, with the reader's special case
that a record consisting of a single empty field is written quoted.
-/

namespace QSRE

/-- Characters stripped by Python `str.strip()` (ASCII / Latin-1 range;
wider Unicode space classes do not occur in the inputs of interest). -/
def isPySpace (c : Char) : Bool :=
  c = ' ' || c = '\t' || c = '\n' || c = '\r' || c = '\x0b' || c = '\x0c' ||
  c = '\x1c' || c = '\x1d' || c = '\x1e' || c = '\x1f' || c = '\x85' || c = '\xa0'

/-- Python `s.strip()`: drop leading and trailing whitespace. -/
def pyStrip (s : String) : String :=
  ⟨((s.data.dropWhile isPySpace).reverse.dropWhile isPySpace).reverse⟩

/-- Python `needle in hay` for strings: substring containment. -/
def strContains (needle hay : String) : Bool :=
  hay.data.tails.any (fun t => needle.data.isPrefixOf t)

/-! ### The `csv` module: reader -/

/-- Reader states of the `csv` module's parser, with the end-of-line event
folded into the `'\n'` transitions (a `StringIO` line always ends at `'\n'`). -/
inductive CsvState
  | startRecord
  | startField
  | inField
  | inQuoted
  | quoteInQuoted
  | eatCrnl
deriving DecidableEq

open CsvState in
/-- The `csv.reader` state machine over the character stream.  `F` is the
field accumulated so far, `R` the fields of the current record; completed
records are consed onto the result of the rest of the stream.  A character
other than CR/LF while eating a CR/LF sequence is the reader's
"new-line character seen in unquoted field" error. -/
def runCsv (st : CsvState) (F : List Char) (R : List (List Char)) :
    List Char → Except String (List (List (List Char)))
  | [] =>
    match st with
    | startRecord => .ok []
    | eatCrnl => .ok []
    | _ => .ok [R ++ [F]]
  | c :: rest =>
    match st with
    | startRecord =>
      if c = '\n' then (runCsv startRecord [] [] rest).map (R :: ·)
      else if c = '\r' then (runCsv eatCrnl [] [] rest).map (R :: ·)
      else if c = ',' then runCsv startField [] (R ++ [F]) rest
      else if c = '"' then runCsv inQuoted F R rest
      else runCsv inField [c] R rest
    | startField =>
      if c = '\n' then (runCsv startRecord [] [] rest).map ((R ++ [F]) :: ·)
      else if c = '\r' then (runCsv eatCrnl [] [] rest).map ((R ++ [F]) :: ·)
      else if c = ',' then runCsv startField [] (R ++ [F]) rest
      else if c = '"' then runCsv inQuoted F R rest
      else runCsv inField [c] R rest
    | inField =>
      if c = '\n' then (runCsv startRecord [] [] rest).map ((R ++ [F]) :: ·)
      else if c = '\r' then (runCsv eatCrnl [] [] rest).map ((R ++ [F]) :: ·)
      else if c = ',' then runCsv startField [] (R ++ [F]) rest
      else runCsv inField (F ++ [c]) R rest
    | inQuoted =>
      if c = '"' then runCsv quoteInQuoted F R rest
      else runCsv inQuoted (F ++ [c]) R rest
    | quoteInQuoted =>
      if c = '"' then runCsv inQuoted (F ++ ['"']) R rest
      else if c = ',' then runCsv startField [] (R ++ [F]) rest
      else if c = '\n' then (runCsv startRecord [] [] rest).map ((R ++ [F]) :: ·)
      else if c = '\r' then (runCsv eatCrnl [] [] rest).map ((R ++ [F]) :: ·)
      else runCsv inField (F ++ [c]) R rest
    | eatCrnl =>
      if c = '\r' then runCsv eatCrnl [] [] rest
      else if c = '\n' then runCsv startRecord [] [] rest
      else .error "new-line character seen in unquoted field"

/-- `list(csv.reader(io.StringIO(text)))`. -/
def parseCsv (text : String) : Except String (List (List String)) :=
  (runCsv .startRecord [] [] text.data).map (List.map (List.map fun f => ⟨f⟩))

/-! ### The `csv` module: writer -/

/-- A field is quoted iff it contains the delimiter, the quote character or a
character of the line terminator `"\n"` (`QUOTE_MINIMAL`). -/
def needsQuote (f : List Char) : Bool :=
  f.any fun c => c = ',' || c = '"' || c = '\n'

/-- Quote-escaping: embedded quote characters are doubled. -/
def escQuote (f : List Char) : List Char :=
  f.flatMap fun c => if c = '"' then ['"', '"'] else [c]

/-- One written field: quoted (with doubled quotes) iff `needsQuote`. -/
def writeField (f : List Char) : List Char :=
  if needsQuote f then '"' :: escQuote f ++ ['"'] else f

/-- Fields of one record joined by the delimiter. -/
def joinComma : List (List Char) → List Char
  | [] => []
  | [f] => f
  | f :: fs => f ++ ',' :: joinComma fs

/-- One written record: fields joined by `','` plus the `"\n"` terminator;
a record that is a single empty field is written as `""` so that it is not
confused with an empty record. -/
def writeRecord (r : List (List Char)) : List Char :=
  if r = [[]] then ['"', '"', '\n']
  else joinComma (r.map writeField) ++ ['\n']

/-- All records written in order. -/
def writeRows (rows : List (List (List Char))) : List Char :=
  (rows.map writeRecord).flatten

/-- `rows_to_csv_bytes`: serialize rows with `csv.writer(..., lineterminator="\n")`
(the UTF-8 byte encoding, which is injective, is left implicit). -/
def rows_to_csv_bytes (rows : List (List String)) : String :=
  ⟨writeRows (rows.map (List.map String.data))⟩

/-! ### Cleaning (`clean_keep_header_drop_2_3`) -/

/-- A row in which some cell is non-empty after stripping:
`any((c or "").strip() for c in row)`. -/
def hasContent (row : List String) : Bool :=
  row.any fun c => !(pyStrip c).isEmpty

/-- Index of the first row with stripped content, the detected header row. -/
def headerIdx (rows : List (List String)) : Option Nat :=
  rows.findIdx? hasContent

/-- `" ".join((c or "") for c in row).strip()`. -/
def joinedTrim (row : List String) : String :=
  pyStrip (String.intercalate " " row)

/-- The filter applied to every kept row: discard if the joined-and-stripped
content is empty, or starts with `{` and contains `ImportId` (vendor footer). -/
def isBlankOrFooter (row : List String) : Bool :=
  let j := joinedTrim row
  j.isEmpty || ("\x7b".data.isPrefixOf j.data && strContains "ImportId" j)

/-- The cleaning loop over `enumerate(rows)`: skip indices `h+1` and `h+2`,
then drop blank and footer rows; `i` is the index of the first row of the
argument within the original list. -/
def cleanFrom (h i : Nat) : List (List String) → List (List String)
  | [] => []
  | row :: rest =>
    if i = h + 1 ∨ i = h + 2 then cleanFrom h (i + 1) rest
    else if isBlankOrFooter row then cleanFrom h (i + 1) rest
    else row :: cleanFrom h (i + 1) rest

/-- The row-level part of `clean_keep_header_drop_2_3` (after `csv.reader`). -/
def cleanRows (rows : List (List String)) : List (List String) :=
  match headerIdx rows with
  | none => []
  | some h => cleanFrom h 0 rows

/-- `clean_keep_header_drop_2_3`: parse the text with `csv.reader`, keep the
first non-blank row as header, drop the two rows after it, drop blank rows and
`ImportId` footer rows.  A reader error propagates. -/
def clean_keep_header_drop_2_3 (csv_text : String) :
    Except String (List (List String)) :=
  (parseCsv csv_text).map cleanRows

/-! ### Decimal formatting (Python `f"{k}"`) -/

/-- Decimal digits of `n`, most significant first, as numbers (`fuel`-driven
structural recursion; `fuel > n` suffices). -/
def decDigits (fuel n : Nat) : List Nat :=
  match fuel with
  | 0 => []
  | f + 1 => if n < 10 then [n] else decDigits f (n / 10) ++ [n % 10]

/-- Python decimal formatting `f"{n}"` of a natural number. -/
def natRepr (n : Nat) : String :=
  ⟨(decDigits (n + 1) n).map Nat.digitChar⟩

/-! ### Header normalization (`rows_to_header_and_dicts`) -/

/-- The base label for cell `name` at 0-based position `i`:
`(name or "").strip() or f"col_{i+1}"`. -/
def baseName (name : String) (i : Nat) : String :=
  if (pyStrip name).isEmpty then "col_" ++ natRepr (i + 1) else pyStrip name

/-- The `k`-th candidate tried for a base label: the base itself, then
`base_2`, `base_3`, … -/
def cand (base : String) (k : Nat) : String :=
  if k = 0 then base else base ++ "_" ++ natRepr (k + 1)

/-- The collision-resolution loop: the first candidate not already assigned.
`seen` lists the already-assigned labels (the keys of the Python `seen` dict,
in insertion order); at most `seen.length + 1` candidates need to be tried,
so the fallback branch is never reached (`resolve_spec`). -/
def resolve (seen : List String) (base : String) : String :=
  match (List.range (seen.length + 1)).find? (fun k => !seen.contains (cand base k)) with
  | some k => cand base k
  | none => cand base (seen.length + 1)

/-- The normalization loop over `enumerate(header)`: `acc` is the list of
labels assigned so far, `i` the position of the first remaining cell. -/
def normalizeHeaderAux (acc : List String) (i : Nat) : List String → List String
  | [] => acc
  | name :: rest =>
    normalizeHeaderAux (acc ++ [resolve acc (baseName name i)]) (i + 1) rest

/-- Normalized header: blank cells become `col_<i+1>`, duplicates get
`_2`, `_3`, … suffixes. -/
def normalizeHeader (header : List String) : List String :=
  normalizeHeaderAux [] 0 header

/-- One record: the Python dict `{col: r[i] if i < len(r) else ""}` built in
header order (keys are unique because the normalized header has no
duplicates), modelled as an association list. -/
def mkRecord (header : List String) (r : List String) : List (String × String) :=
  header.enum.map fun p => (p.2, r.getD p.1 "")

/-- `rows_to_header_and_dicts`: first row (normalized) as header, every later
row as one record. -/
def rows_to_header_and_dicts (rows : List (List String)) :
    List String × List (List (String × String)) :=
  match rows with
  | [] => ([], [])
  | header :: rest =>
    let h := normalizeHeader header
    (h, rest.map (mkRecord h))

/-! ### Merge (`merge_tables`) -/

/-- A normalized table: header plus records. -/
abbrev Table := List String × List (List (String × String))

/-- `d.get(col, "")` on a record dict. -/
def dget (d : List (String × String)) (col : String) : String :=
  (List.lookup col d).getD ""

/-- Fold one table's header into the superset header accumulator, appending
labels not yet present (the Python `seen` set always holds exactly the
elements of the `sup_header` list, so one accumulator serves as both). -/
def supFold (acc : List String) (hdr : List String) : List String :=
  hdr.foldl (fun a col => if a.contains col then a else a ++ [col]) acc

/-- Superset header: union of all headers, first-appearance order. -/
def sup_header (tables : List Table) : List String :=
  tables.foldl (fun a t => supFold a t.1) []

/-- `merge_tables`: the superset header row, then every record of every table
re-keyed positionally onto the superset header, absent labels as `""`. -/
def merge_tables (tables : List Table) : List (List String) :=
  let sup := sup_header tables
  sup :: tables.flatMap fun t => t.2.map fun d => sup.map (dget d)

/-! ### Lemmas about the superset header -/

theorem mem_supFold {acc hdr : List String} {col : String} :
    col ∈ supFold acc hdr ↔ col ∈ acc ∨ col ∈ hdr := by
  induction hdr generalizing acc with
  | nil => simp [supFold]
  | cons a t ih =>
    show col ∈ supFold (if acc.contains a then acc else acc ++ [a]) t ↔ _
    by_cases h : acc.contains a
    · rw [if_pos h, ih]
      constructor
      · rintro (hc | hc)
        · exact Or.inl hc
        · exact Or.inr (List.mem_cons_of_mem _ hc)
      · rintro (hc | hc)
        · exact Or.inl hc
        · rcases List.mem_cons.mp hc with rfl | hc
          · exact Or.inl (List.elem_iff.mp h)
          · exact Or.inr hc
    · rw [if_neg h, ih]
      simp only [List.mem_append, List.mem_singleton, List.mem_cons]
      tauto

theorem nodup_supFold {acc hdr : List String} (h : acc.Nodup) :
    (supFold acc hdr).Nodup := by
  induction hdr generalizing acc with
  | nil => exact h
  | cons a t ih =>
    show (supFold (if acc.contains a then acc else acc ++ [a]) t).Nodup
    by_cases hc : acc.contains a
    · rw [if_pos hc]; exact ih h
    · rw [if_neg hc]
      refine ih ?_
      simp only [List.nodup_append, List.nodup_cons, List.nodup_nil, and_true,
        List.disjoint_singleton]
      exact ⟨h, by simp, fun hm => hc (List.elem_iff.mpr hm)⟩

theorem mem_sup_header {tables : List Table} {col : String} :
    col ∈ sup_header tables ↔ ∃ t ∈ tables, col ∈ t.1 := by
  have key : ∀ (ts : List Table) (acc : List String),
      col ∈ ts.foldl (fun a t => supFold a t.1) acc ↔
        col ∈ acc ∨ ∃ t ∈ ts, col ∈ t.1 := by
    intro ts
    induction ts with
    | nil => simp
    | cons t ts ih =>
      intro acc
      rw [List.foldl_cons, ih, mem_supFold]
      simp only [List.mem_cons]
      constructor
      · rintro ((h | h) | ⟨u, hu, hc⟩)
        · exact Or.inl h
        · exact Or.inr ⟨t, Or.inl rfl, h⟩
        · exact Or.inr ⟨u, Or.inr hu, hc⟩
      · rintro (h | ⟨u, (rfl | hu), hc⟩)
        · exact Or.inl (Or.inl h)
        · exact Or.inl (Or.inr hc)
        · exact Or.inr ⟨u, hu, hc⟩
  rw [sup_header, key]
  simp

theorem nodup_sup_header (tables : List Table) : (sup_header tables).Nodup := by
  have key : ∀ (ts : List Table) (acc : List String), acc.Nodup →
      (ts.foldl (fun a t => supFold a t.1) acc).Nodup := by
    intro ts
    induction ts with
    | nil => exact fun _ h => h
    | cons t ts ih => exact fun acc h => ih _ (nodup_supFold h)
  exact key tables [] List.nodup_nil

end QSRE

namespace QSRE

/-- C10: `merge_tables` applied to the empty sequence of tables raises no
error and returns exactly one row: the empty superset header, with no record
rows. -/
theorem claim_C10_merge_empty : merge_tables [] = [[]] := rfl

/-- C9: every row of `merge_tables`'s output — the superset header row and
every re-keyed record row — has exactly as many cells as the superset header:
the merged output is rectangular. -/
theorem claim_C9_merge_rectangular (tables : List Table) (row : List String)
    (h : row ∈ merge_tables tables) : row.length = (sup_header tables).length := by
  rcases List.mem_cons.mp h with rfl | h
  · rfl
  · obtain ⟨t, _, hr⟩ := List.mem_flatMap.mp h
    obtain ⟨d, _, rfl⟩ := List.mem_map.mp hr
    exact List.length_map _ _

/-- C9 witness: the record row of a concrete one-table merge has the superset
header's length. -/
theorem claim_C9_witness :
    (["1", ""] : List String).length =
      (sup_header [(["A", "B"], [[("A", "1")]])]).length :=
  claim_C9_merge_rectangular [(["A", "B"], [[("A", "1")]])] ["1", ""] (by decide)

/-- C3: the superset header contains a label iff some table's header does, it
never repeats a label, headers `["A","B"]` and `["B","C"]` merge to
`["A","B","C"]` with the record `{A:"1",B:"2"}` re-keyed to `["1","2",""]`,
and the Name/Age + Age/City scenario merges to header `["Name","Age","City"]`
with the two records re-keyed in table order. -/
theorem claim_C3_merge_superset :
    (∀ (tables : List Table) (col : String),
        col ∈ sup_header tables ↔ ∃ t ∈ tables, col ∈ t.1) ∧
    (∀ tables : List Table, (sup_header tables).Nodup) ∧
    sup_header [(["A", "B"], []), (["B", "C"], [])] = ["A", "B", "C"] ∧
    merge_tables [(["A", "B"], [[("A", "1"), ("B", "2")]]), (["B", "C"], [])] =
      [["A", "B", "C"], ["1", "2", ""]] ∧
    merge_tables [(["Name", "Age"], [[("Name", "Al"), ("Age", "30")]]),
        (["Age", "City"], [[("Age", "25"), ("City", "NY")]])] =
      [["Name", "Age", "City"], ["Al", "30", ""], ["", "25", "NY"]] :=
  ⟨fun _ _ => mem_sup_header, nodup_sup_header, by decide, by decide, by decide⟩

/-- C6: `merge_tables` is value-preserving — for every table of the input,
every record of that table and every label of that table's header, the
re-keyed record row carries exactly the record's original value for that
label at every position where the superset header holds that label (and such
a position exists, and the re-keyed row is part of the merged output). -/
theorem claim_C6_merge_value_preserving (tables : List Table)
    (hdr : List String) (recs : List (List (String × String)))
    (d : List (String × String)) (col v : String)
    (ht : (hdr, recs) ∈ tables) (hd : d ∈ recs) (hcol : col ∈ hdr)
    (hv : List.lookup col d = some v) :
    (∃ i : Nat, (sup_header tables)[i]? = some col) ∧
    ∀ i : Nat, (sup_header tables)[i]? = some col →
      ((sup_header tables).map (dget d))[i]? = some v ∧
      (sup_header tables).map (dget d) ∈ merge_tables tables := by
  have hsup : col ∈ sup_header tables :=
    mem_sup_header.mpr ⟨(hdr, recs), ht, hcol⟩
  constructor
  · obtain ⟨i, hi, hget⟩ := List.mem_iff_getElem.mp hsup
    exact ⟨i, hget ▸ List.getElem?_eq_getElem hi⟩
  · intro i hi
    constructor
    · rw [List.getElem?_map, hi]
      show some (dget d col) = some v
      rw [dget, hv, Option.getD_some]
    · exact List.mem_cons_of_mem _ (List.mem_flatMap.mpr
        ⟨(hdr, recs), ht, List.mem_map.mpr ⟨d, hd, rfl⟩⟩)

/-- C6 witness: in the two-table scenario, the record `{Name:"Al",Age:"30"}`
keeps its value `"30"` under `"Age"` after re-keying. -/
theorem claim_C6_witness :
    (∃ i : Nat, (sup_header [(["Name", "Age"], [[("Name", "Al"), ("Age", "30")]]),
        (["Age", "City"], [[("Age", "25"), ("City", "NY")]])])[i]? =
        some "Age") ∧
    ∀ i : Nat, (sup_header [(["Name", "Age"], [[("Name", "Al"), ("Age", "30")]]),
        (["Age", "City"], [[("Age", "25"), ("City", "NY")]])])[i]? =
        some "Age" →
      ((sup_header [(["Name", "Age"], [[("Name", "Al"), ("Age", "30")]]),
          (["Age", "City"], [[("Age", "25"), ("City", "NY")]])]).map
        (dget [("Name", "Al"), ("Age", "30")]))[i]? = some "30" ∧
      (sup_header [(["Name", "Age"], [[("Name", "Al"), ("Age", "30")]]),
          (["Age", "City"], [[("Age", "25"), ("City", "NY")]])]).map
        (dget [("Name", "Al"), ("Age", "30")]) ∈
        merge_tables [(["Name", "Age"], [[("Name", "Al"), ("Age", "30")]]),
          (["Age", "City"], [[("Age", "25"), ("City", "NY")]])] :=
  claim_C6_merge_value_preserving
    [(["Name", "Age"], [[("Name", "Al"), ("Age", "30")]]),
      (["Age", "City"], [[("Age", "25"), ("City", "NY")]])]
    ["Name", "Age"] [[("Name", "Al"), ("Age", "30")]]
    [("Name", "Al"), ("Age", "30")] "Age" "30"
    (by decide) (by decide) (by decide) (by rfl)

end QSRE

namespace QSRE

/-! ### Lemmas about cleaning -/

/-- The keep-predicate of claim C1, stated the way the spec words it: a row
is kept iff it is not at position `h+1` or `h+2`, its joined-and-stripped
content is non-empty, and that content does not start with `{` while
containing `ImportId`. -/
def cleanKeepSpec (h : Nat) (p : Nat × List String) : Bool :=
  p.1 != h + 1 && p.1 != h + 2 && !(joinedTrim p.2 == "") &&
  !("\x7b".data.isPrefixOf (joinedTrim p.2).data && strContains "ImportId" (joinedTrim p.2))

theorem isEmpty_eq_beq (s : String) : s.isEmpty = (s == "") := by
  rw [Bool.eq_iff_iff, String.isEmpty_iff, beq_iff_eq]

theorem cleanKeepSpec_eq (h i : Nat) (row : List String) :
    cleanKeepSpec h (i, row) =
      (!(i == h + 1 || i == h + 2) && !isBlankOrFooter row) := by
  rw [cleanKeepSpec, isBlankOrFooter, isEmpty_eq_beq]
  simp only [Bool.not_or, Bool.and_assoc]
  rfl

theorem cleanFrom_eq_filter (h : Nat) :
    ∀ (l : List (List String)) (i : Nat),
      cleanFrom h i l = ((l.enumFrom i).filter (cleanKeepSpec h)).map Prod.snd := by
  intro l
  induction l with
  | nil => intro i; rfl
  | cons row rest ih =>
    intro i
    show (if i = h + 1 ∨ i = h + 2 then cleanFrom h (i + 1) rest
      else if isBlankOrFooter row then cleanFrom h (i + 1) rest
      else row :: cleanFrom h (i + 1) rest) =
      (((i, row) :: rest.enumFrom (i + 1)).filter (cleanKeepSpec h)).map Prod.snd
    rw [List.filter_cons]
    by_cases hd : i = h + 1 ∨ i = h + 2
    · have hks : cleanKeepSpec h (i, row) = false := by
        rw [cleanKeepSpec_eq]
        rcases hd with rfl | rfl <;> simp
      rw [if_pos hd, hks]
      simp only [Bool.false_eq_true, if_false]
      exact ih (i + 1)
    · have hne : ¬i = h + 1 ∧ ¬i = h + 2 := not_or.mp hd
      rw [if_neg hd]
      by_cases hb : isBlankOrFooter row = true
      · have hks : cleanKeepSpec h (i, row) = false := by
          rw [cleanKeepSpec_eq, hb]
          simp
        rw [if_pos hb, hks]
        simp only [Bool.false_eq_true, if_false]
        exact ih (i + 1)
      · have hb' : isBlankOrFooter row = false := by
          revert hb
          cases isBlankOrFooter row <;> simp
        have hks : cleanKeepSpec h (i, row) = true := by
          rw [cleanKeepSpec_eq, hb']
          simp [hne.1, hne.2]
        rw [if_neg hb, hks]
        simp only [if_true]
        rw [List.map_cons, ih (i + 1)]

theorem cleanRows_eq (rows : List (List String)) (h : Nat)
    (hh : headerIdx rows = some h) : cleanRows rows = cleanFrom h 0 rows := by
  rw [cleanRows, hh]

/-- C1: for every input text whose parsed rows have a detectable header row
at index `h`, `clean` returns exactly the input rows, in order, that are not
at positions `h+1` or `h+2`, are not all-blank after joining and stripping,
and whose joined-and-stripped content does not start with `{` while
containing `ImportId`. -/
theorem claim_C1_clean_filter (text : String) (rows : List (List String))
    (h : Nat) (hp : parseCsv text = .ok rows)
    (hh : headerIdx rows = some h) :
    clean_keep_header_drop_2_3 text =
      .ok ((rows.enum.filter (cleanKeepSpec h)).map Prod.snd) := by
  rw [clean_keep_header_drop_2_3, hp]
  show Except.ok (cleanRows rows) = _
  rw [cleanRows_eq rows h hh, cleanFrom_eq_filter]
  rfl

/-- C1 witness: a concrete five-row source with header at index 0; the rows
at positions 1 and 2 are dropped, the blank row is dropped, the rest kept. -/
theorem claim_C1_witness :
    clean_keep_header_drop_2_3 "A,B\nx\ny\n\nz\n" =
      .ok (((List.enum [["A", "B"], ["x"], ["y"], [], ["z"]]).filter
        (cleanKeepSpec 0)).map Prod.snd) :=
  claim_C1_clean_filter "A,B\nx\ny\n\nz\n" [["A", "B"], ["x"], ["y"], [], ["z"]]
    0 (by rfl) (by rfl)

/-- C8: if the detected header row itself looks like an `ImportId` footer —
its joined-and-stripped content starts with `{` and contains `ImportId` —
then `clean` discards it too: the detected header row does not occur in the
output.  The output can even be empty, as the one-row footer-only input
shows. -/
theorem claim_C8_footer_header_dropped (rows : List (List String)) (h : Nat)
    (hh : h < rows.length) (hidx : headerIdx rows = some h)
    (hfoot : ("\x7b".data.isPrefixOf (joinedTrim (rows.get ⟨h, hh⟩)).data &&
      strContains "ImportId" (joinedTrim (rows.get ⟨h, hh⟩))) = true) :
    rows.get ⟨h, hh⟩ ∉ cleanRows rows ∧
      cleanRows [["\x7b\"ImportId\":\"finished\"\x7d"]] = [] := by
  refine ⟨?_, by rfl⟩
  intro hmem
  rw [cleanRows_eq rows h hidx, cleanFrom_eq_filter] at hmem
  obtain ⟨⟨i, row⟩, hpf, hsnd⟩ := List.mem_map.mp hmem
  have hkeep := List.of_mem_filter hpf
  rw [cleanKeepSpec] at hkeep
  have hnf : ¬("\x7b".data.isPrefixOf (joinedTrim row).data &&
      strContains "ImportId" (joinedTrim row)) = true := by
    intro hfr
    rw [hfr] at hkeep
    simp at hkeep
  exact hnf (by rw [show row = rows.get ⟨h, hh⟩ from hsnd]; exact hfoot)

/-- C8 witness: a two-row input whose detected header row (index 0) is an
`ImportId` footer; it is discarded from the output. -/
theorem claim_C8_witness :
    ([("\x7b\"ImportId\":\"x\"\x7d" : String)] ∉
      cleanRows [["\x7b\"ImportId\":\"x\"\x7d"], ["a"]]) ∧
      cleanRows [["\x7b\"ImportId\":\"finished\"\x7d"]] = [] :=
  claim_C8_footer_header_dropped [["\x7b\"ImportId\":\"x\"\x7d"], ["a"]] 0
    (by decide) (by rfl) (by decide)

/-- C5: on the specific parsed rows
`[["Q1","Q2"], ["v1","v2"], ["\x7b\"ImportId\":\"finished\"\x7d"]]` (header at
index 0), cleaning drops the rows at positions 1 and 2 (the footer row being
one of them), and normalization then yields header `["Q1","Q2"]` with zero
records. -/
theorem claim_C5_end_to_end :
    cleanRows [["Q1", "Q2"], ["v1", "v2"], ["\x7b\"ImportId\":\"finished\"\x7d"]] =
      [["Q1", "Q2"]] ∧
    rows_to_header_and_dicts
        (cleanRows [["Q1", "Q2"], ["v1", "v2"],
          ["\x7b\"ImportId\":\"finished\"\x7d"]]) =
      (["Q1", "Q2"], []) :=
  ⟨by rfl, by rfl⟩

end QSRE

namespace QSRE

/-! ### Decimal formatting: injectivity -/

/-- Value of a most-significant-first digit list. -/
def decVal (ds : List Nat) : Nat :=
  ds.foldl (fun a d => 10 * a + d) 0

theorem decVal_append (ds : List Nat) (d : Nat) :
    decVal (ds ++ [d]) = 10 * decVal ds + d := by
  rw [decVal, List.foldl_append]
  rfl

theorem decVal_decDigits : ∀ (fuel n : Nat), n < fuel →
    decVal (decDigits fuel n) = n := by
  intro fuel
  induction fuel with
  | zero => intro n hn; omega
  | succ f ih =>
    intro n hn
    rw [decDigits]
    by_cases h : n < 10
    · rw [if_pos h]
      show 10 * 0 + n = n
      omega
    · rw [if_neg h, decVal_append, ih (n / 10) (by omega)]
      omega

theorem decDigits_lt : ∀ (fuel n : Nat), n < fuel →
    ∀ d ∈ decDigits fuel n, d < 10 := by
  intro fuel
  induction fuel with
  | zero => intro n hn; omega
  | succ f ih =>
    intro n hn d hd
    rw [decDigits] at hd
    by_cases h : n < 10
    · rw [if_pos h, List.mem_singleton] at hd
      omega
    · rw [if_neg h, List.mem_append] at hd
      rcases hd with hd | hd
      · exact ih (n / 10) (by omega) d hd
      · rw [List.mem_singleton] at hd
        omega

theorem decDigits_ne_nil (n : Nat) : decDigits (n + 1) n ≠ [] := by
  rw [decDigits]
  by_cases h : n < 10
  · rw [if_pos h]; simp
  · rw [if_neg h]; simp

theorem digitChar_inj_lt : ∀ a < 10, ∀ b < 10,
    Nat.digitChar a = Nat.digitChar b → a = b := by decide

theorem map_digitChar_inj : ∀ (a b : List Nat), (∀ d ∈ a, d < 10) →
    (∀ d ∈ b, d < 10) → a.map Nat.digitChar = b.map Nat.digitChar → a = b := by
  intro a
  induction a with
  | nil =>
    intro b _ _ h
    cases b with
    | nil => rfl
    | cons x xs => simp at h
  | cons x xs ih =>
    intro b ha hb h
    cases b with
    | nil => simp at h
    | cons y ys =>
      simp only [List.map_cons, List.cons.injEq] at h
      have hx : x = y := digitChar_inj_lt x (ha x (by simp)) y (hb y (by simp)) h.1
      have : xs = ys :=
        ih ys (fun d hd => ha d (List.mem_cons_of_mem _ hd))
          (fun d hd => hb d (List.mem_cons_of_mem _ hd)) h.2
      rw [hx, this]

theorem natRepr_inj {m n : Nat} (h : natRepr m = natRepr n) : m = n := by
  have hd : (decDigits (m + 1) m).map Nat.digitChar =
      (decDigits (n + 1) n).map Nat.digitChar :=
    congrArg String.data h
  have := map_digitChar_inj _ _
    (decDigits_lt (m + 1) m (Nat.lt_succ_self m))
    (decDigits_lt (n + 1) n (Nat.lt_succ_self n)) hd
  calc m = decVal (decDigits (m + 1) m) :=
        (decVal_decDigits (m + 1) m (Nat.lt_succ_self m)).symm
    _ = decVal (decDigits (n + 1) n) := by rw [this]
    _ = n := decVal_decDigits (n + 1) n (Nat.lt_succ_self n)

theorem natRepr_ne_empty (n : Nat) : (natRepr n).data ≠ [] := by
  rw [natRepr]
  intro h
  exact decDigits_ne_nil n (List.map_eq_nil_iff.mp h)

/-! ### Collision resolution -/

theorem cand_zero (base : String) : cand base 0 = base := rfl

theorem cand_succ_data (base : String) (k : Nat) :
    (cand base (k + 1)).data = base.data ++ '_' :: (natRepr (k + 2)).data := by
  rw [cand, if_neg (Nat.succ_ne_zero k), String.data_append, String.data_append,
    List.append_assoc]
  rfl

theorem cand_inj (base : String) : ∀ {j k : Nat},
    cand base j = cand base k → j = k := by
  intro j k h
  match j, k with
  | 0, 0 => rfl
  | 0, k + 1 =>
    exfalso
    have hd := congrArg String.data h
    rw [cand_zero, cand_succ_data] at hd
    have := congrArg List.length hd
    simp only [List.length_append, List.length_cons] at this
    omega
  | j + 1, 0 =>
    exfalso
    have hd := congrArg String.data h
    rw [cand_zero, cand_succ_data] at hd
    have := congrArg List.length hd
    simp only [List.length_append, List.length_cons] at this
    omega
  | j + 1, k + 1 =>
    have hd := congrArg String.data h
    rw [cand_succ_data, cand_succ_data] at hd
    have h2 := List.append_cancel_left hd
    have h3 : (natRepr (j + 2)).data = (natRepr (k + 2)).data :=
      (List.cons.inj h2).2
    have := natRepr_inj (String.ext h3)
    omega

theorem find?_min {α} (p : α → Bool) :
    ∀ (l : List α) (a : α), l.find? p = some a →
      p a = true ∧ ∃ i : Nat, l[i]? = some a ∧
        ∀ j < i, ∀ b, l[j]? = some b → p b = false := by
  intro l
  induction l with
  | nil => intro a h; cases h
  | cons x xs ih =>
    intro a h
    by_cases hx : p x = true
    · rw [List.find?_cons_of_pos _ hx] at h
      have hax : x = a := Option.some.inj h
      refine ⟨hax ▸ hx, 0, by simp [hax], ?_⟩
      intro j hj
      omega
    · rw [List.find?_cons_of_neg _ hx] at h
      obtain ⟨hpa, i, hi, hmin⟩ := ih a h
      refine ⟨hpa, i + 1, by simpa using hi, ?_⟩
      intro j hj b hb
      match j with
      | 0 =>
        rw [List.getElem?_cons_zero] at hb
        rw [← Option.some.inj hb]
        exact Bool.not_eq_true _ ▸ hx
      | j + 1 =>
        rw [List.getElem?_cons_succ] at hb
        exact hmin j (by omega) b hb

theorem find?_range_min (p : Nat → Bool) (n k : Nat)
    (h : (List.range n).find? p = some k) :
    p k = true ∧ ∀ j < k, p j = false := by
  obtain ⟨hpk, i, hi, hmin⟩ := find?_min p (List.range n) k h
  have hin : i < n := by
    by_contra hge
    rw [List.getElem?_eq_none (by simpa using Nat.le_of_not_lt hge)] at hi
    cases hi
  have hik : k = i := by
    rw [List.getElem?_range hin] at hi
    exact (Option.some.inj hi).symm
  refine ⟨hpk, ?_⟩
  intro j hj
  exact hmin j (hik ▸ hj) j (List.getElem?_range (by omega))

theorem resolve_spec (seen : List String) (base : String) :
    ∃ k, resolve seen base = cand base k ∧ cand base k ∉ seen ∧
      ∀ j < k, cand base j ∈ seen := by
  have hmem_of : ∀ k, (!seen.contains (cand base k)) = false →
      cand base k ∈ seen := by
    intro k hk
    rw [Bool.not_eq_false'] at hk
    exact List.elem_iff.mp hk
  have hnot_of : ∀ k, (!seen.contains (cand base k)) = true →
      cand base k ∉ seen := by
    intro k hk hmem
    rw [Bool.not_eq_true'] at hk
    have h1 : seen.contains (cand base k) = true := List.elem_iff.mpr hmem
    rw [hk] at h1
    cases h1
  cases hfind : (List.range (seen.length + 1)).find?
      (fun k => !seen.contains (cand base k)) with
  | some k =>
    obtain ⟨hpk, hmin⟩ := find?_range_min _ _ _ hfind
    refine ⟨k, by rw [resolve, hfind], hnot_of k hpk, ?_⟩
    intro j hj
    exact hmem_of j (hmin j hj)
  | none =>
    exfalso
    have hall : ∀ k ∈ List.range (seen.length + 1), cand base k ∈ seen := by
      intro k hk
      have hne := List.find?_eq_none.mp hfind k hk
      exact hmem_of k (Bool.not_eq_true _ ▸ hne)
    have hsub : (List.range (seen.length + 1)).map (cand base) ⊆ seen := by
      intro x hx
      obtain ⟨k, hk, rfl⟩ := List.mem_map.mp hx
      exact hall k hk
    have hinj : Function.Injective (cand base) := fun _ _ h => cand_inj base h
    have hnodup : ((List.range (seen.length + 1)).map (cand base)).Nodup :=
      (List.nodup_range _).map hinj
    have := (List.subperm_of_subset hnodup hsub).length_le
    simp only [List.length_map, List.length_range] at this
    omega

theorem resolve_not_mem (seen : List String) (base : String) :
    resolve seen base ∉ seen := by
  obtain ⟨k, hres, hnm, _⟩ := resolve_spec seen base
  rw [hres]
  exact hnm

end QSRE

namespace QSRE

/-! ### Header normalization: structure of the loop -/

theorem aux_take_le : ∀ (l acc : List String) (i n : Nat), n ≤ acc.length →
    (normalizeHeaderAux acc i l).take n = acc.take n := by
  intro l
  induction l with
  | nil => intro acc i n _; rfl
  | cons name rest ih =>
    intro acc i n hn
    show (normalizeHeaderAux (acc ++ [resolve acc (baseName name i)]) (i + 1)
      rest).take n = acc.take n
    rw [ih _ (i + 1) n (by simp; omega),
      List.take_append_of_le_length hn]

theorem aux_length : ∀ (l acc : List String) (i : Nat),
    (normalizeHeaderAux acc i l).length = acc.length + l.length := by
  intro l
  induction l with
  | nil => intro acc i; simp [normalizeHeaderAux]
  | cons name rest ih =>
    intro acc i
    show (normalizeHeaderAux (acc ++ [resolve acc (baseName name i)]) (i + 1)
      rest).length = acc.length + (rest.length + 1)
    rw [ih]
    simp
    omega

theorem aux_take_eq : ∀ (l acc : List String) (i : Nat),
    (normalizeHeaderAux acc i l).take acc.length = acc := by
  intro l acc i
  rw [aux_take_le l acc i acc.length (Nat.le_refl _), List.take_length]

theorem aux_getElem : ∀ (l acc : List String) (i j : Nat) (col : String),
    l[j]? = some col →
    (normalizeHeaderAux acc i l)[acc.length + j]? =
      some (resolve ((normalizeHeaderAux acc i l).take (acc.length + j))
        (baseName col (i + j))) := by
  intro l
  induction l with
  | nil => intro acc i j col h; cases h
  | cons name rest ih =>
    intro acc i j col h
    match j with
    | 0 =>
      rw [List.getElem?_cons_zero] at h
      have hcol : name = col := Option.some.inj h
      subst hcol
      show (normalizeHeaderAux (acc ++ [resolve acc (baseName name i)]) (i + 1)
          rest)[acc.length + 0]? =
        some (resolve ((normalizeHeaderAux (acc ++ [resolve acc (baseName name i)])
          (i + 1) rest).take (acc.length + 0)) (baseName name (i + 0)))
      have htake : (normalizeHeaderAux (acc ++ [resolve acc (baseName name i)])
          (i + 1) rest).take acc.length = acc := by
        rw [aux_take_le _ _ _ acc.length (by simp),
          List.take_append_of_le_length (Nat.le_refl _), List.take_length]
      have htake1 : (normalizeHeaderAux (acc ++ [resolve acc (baseName name i)])
          (i + 1) rest).take (acc.length + 1) = acc ++ [resolve acc (baseName name i)] := by
        have := aux_take_eq rest (acc ++ [resolve acc (baseName name i)]) (i + 1)
        rwa [List.length_append, List.length_singleton] at this
      have hget : (normalizeHeaderAux (acc ++ [resolve acc (baseName name i)])
          (i + 1) rest)[acc.length]? = some (resolve acc (baseName name i)) := by
        rw [← List.getElem?_take_of_lt (Nat.lt_succ_self acc.length), htake1,
          List.getElem?_concat_length]
      simp only [Nat.add_zero]
      rw [hget, htake]
    | j + 1 =>
      rw [List.getElem?_cons_succ] at h
      show (normalizeHeaderAux (acc ++ [resolve acc (baseName name i)]) (i + 1)
          rest)[acc.length + (j + 1)]? = _
      have harith : acc.length + (j + 1) =
          (acc ++ [resolve acc (baseName name i)]).length + j := by
        simp
        omega
      have hi : i + (j + 1) = (i + 1) + j := by omega
      rw [harith, hi]
      exact ih (acc ++ [resolve acc (baseName name i)]) (i + 1) j col h

theorem aux_nodup : ∀ (l acc : List String) (i : Nat), acc.Nodup →
    (normalizeHeaderAux acc i l).Nodup := by
  intro l
  induction l with
  | nil => intro acc i h; exact h
  | cons name rest ih =>
    intro acc i h
    show (normalizeHeaderAux (acc ++ [resolve acc (baseName name i)]) (i + 1)
      rest).Nodup
    refine ih _ _ ?_
    simp only [List.nodup_append, List.nodup_cons, List.nodup_nil, and_true,
      List.disjoint_singleton]
    exact ⟨h, by simp, fun hm => resolve_not_mem acc (baseName name i) hm⟩

theorem normalizeHeader_nodup (header : List String) :
    (normalizeHeader header).Nodup :=
  aux_nodup header [] 0 List.nodup_nil

/-- C2: normalization preserves the header's length, never outputs two
identical labels, assigns each position the first non-colliding candidate of
its base label (trimmed cell if non-empty, else `col_<i+1>`; candidates are
the base, then `base_2`, `base_3`, …, matched exactly against the
already-assigned labels), and produces `["Q1","Q1_2"]` from `["Q1","Q1"]`
and `["col_1","Name","col_3"]` from `["","Name",""]`. -/
theorem claim_C2_normalize_header :
    (∀ header : List String,
      (normalizeHeader header).length = header.length ∧
      (normalizeHeader header).Nodup ∧
      ∀ (i : Nat) (col : String), header[i]? = some col →
        ∃ k, (normalizeHeader header)[i]? = some (cand (baseName col i) k) ∧
          cand (baseName col i) k ∉ (normalizeHeader header).take i ∧
          ∀ j < k, cand (baseName col i) j ∈ (normalizeHeader header).take i) ∧
    normalizeHeader ["Q1", "Q1"] = ["Q1", "Q1_2"] ∧
    normalizeHeader ["", "Name", ""] = ["col_1", "Name", "col_3"] := by
  refine ⟨?_, by rfl, by rfl⟩
  intro header
  refine ⟨by rw [normalizeHeader, aux_length]; simp, normalizeHeader_nodup header, ?_⟩
  intro i col hcol
  have hg := aux_getElem header [] 0 i col hcol
  simp only [List.length_nil, Nat.zero_add] at hg
  obtain ⟨k, hres, hnm, hmem⟩ :=
    resolve_spec ((normalizeHeader header).take i) (baseName col i)
  rw [show normalizeHeaderAux [] 0 header = normalizeHeader header from rfl,
    hres] at hg
  exact ⟨k, hg, hnm, hmem⟩

/-- C2 witness: at position 1 of `["Q1","Q1"]` the base label `Q1` collides
with the already-assigned prefix and is resolved to a suffixed candidate. -/
theorem claim_C2_witness :
    ∃ k, (normalizeHeader ["Q1", "Q1"])[1]? = some (cand (baseName "Q1" 1) k) ∧
      cand (baseName "Q1" 1) k ∉ (normalizeHeader ["Q1", "Q1"]).take 1 ∧
      ∀ j < k, cand (baseName "Q1" 1) j ∈ (normalizeHeader ["Q1", "Q1"]).take 1 :=
  (claim_C2_normalize_header.1 ["Q1", "Q1"]).2.2 1 "Q1" (by rfl)

/-! ### Records -/

theorem lookup_enumFrom_map (r : List String) :
    ∀ (hdr : List String) (i0 : Nat), hdr.Nodup →
      ∀ (i : Nat) (col : String), hdr[i]? = some col →
        List.lookup col ((hdr.enumFrom i0).map fun p => (p.2, r.getD p.1 "")) =
          some (r.getD (i0 + i) "") := by
  intro hdr
  induction hdr with
  | nil => intro i0 _ i col h; cases h
  | cons a t ih =>
    intro i0 hnd i col h
    rw [List.enumFrom_cons, List.map_cons]
    match i with
    | 0 =>
      rw [List.getElem?_cons_zero] at h
      have hac : a = col := Option.some.inj h
      subst hac
      rw [show ((i0, a).2, r.getD (i0, a).1 "") = (a, r.getD i0 "") from rfl,
        List.lookup_cons_self, Nat.add_zero]
    | i + 1 =>
      rw [List.getElem?_cons_succ] at h
      have hcol_mem : col ∈ t := List.getElem?_mem h
      have hne : a ≠ col := by
        intro hec
        exact (List.nodup_cons.mp hnd).1 (hec ▸ hcol_mem)
      have hbeq : (col == a) = false := beq_eq_false_iff_ne.mpr (Ne.symm hne)
      rw [show ((i0, a).2, r.getD (i0, a).1 "") = (a, r.getD i0 "") from rfl,
        List.lookup_cons, hbeq]
      show List.lookup col ((t.enumFrom (i0 + 1)).map
        fun p => (p.2, r.getD p.1 "")) = _
      rw [ih (i0 + 1) (List.nodup_cons.mp hnd).2 i col h]
      congr 1
      rw [Nat.add_assoc, Nat.add_comm 1 i]

/-- C7: normalization is total on ragged input — every data row becomes one
record whose keys are exactly the normalized header labels, with the value at
header position `i` equal to `row[i]` when `i` is within the row and `""`
otherwise; cells beyond the header's length never enter the record. -/
theorem claim_C7_normalize_total_ragged (rows : List (List String))
    (hne : rows ≠ []) (hdr : List String)
    (recs : List (List (String × String)))
    (heq : rows_to_header_and_dicts rows = (hdr, recs)) :
    recs.length = rows.length - 1 ∧
    ∀ (j : Nat) (r : List String), rows[j + 1]? = some r →
      ∃ d, recs[j]? = some d ∧ d.map Prod.fst = hdr ∧
        ∀ (i : Nat) (col : String), hdr[i]? = some col →
          List.lookup col d = some (r.getD i "") := by
  match rows with
  | [] => exact absurd rfl hne
  | header :: rest =>
    have hpair : (normalizeHeader header, rest.map (mkRecord (normalizeHeader header))) =
        (hdr, recs) := heq
    have hhdr : normalizeHeader header = hdr := (Prod.mk.inj hpair).1
    have hrecs : rest.map (mkRecord (normalizeHeader header)) = recs :=
      (Prod.mk.inj hpair).2
    constructor
    · rw [← hrecs, List.length_map, List.length_cons]
      rfl
    · intro j r hjr
      rw [List.getElem?_cons_succ] at hjr
      refine ⟨mkRecord hdr r, ?_, ?_, ?_⟩
      · rw [← hrecs, List.getElem?_map, hjr, hhdr]
        rfl
      · show (hdr.enum.map fun p => (p.2, r.getD p.1 "")).map Prod.fst = hdr
        rw [List.map_map]
        exact List.enumFrom_map_snd 0 hdr
      · intro i col hcol
        have := lookup_enumFrom_map r hdr 0 (hhdr ▸ normalizeHeader_nodup header)
          i col hcol
        rw [Nat.zero_add] at this
        exact this

/-- C7 witness: a three-row input whose first data row is shorter than the
header and whose second is longer; the short row's record pads with `""`. -/
theorem claim_C7_witness :
    ∃ d, ([[("A", "x"), ("B", "")], [("A", "1"), ("B", "2")]] :
        List (List (String × String)))[0]? = some d ∧
      d.map Prod.fst = ["A", "B"] ∧
      ∀ (i : Nat) (col : String), (["A", "B"] : List String)[i]? = some col →
        List.lookup col d = some ((["x"] : List String).getD i "") :=
  (claim_C7_normalize_total_ragged [["A", "B"], ["x"], ["1", "2", "3"]]
    (by decide) ["A", "B"]
    [[("A", "x"), ("B", "")], [("A", "1"), ("B", "2")]] (by rfl)).2 0 ["x"]
    (by rfl)

end QSRE


namespace QSRE

/-! ### Round-trip of the csv writer through the csv reader -/

/-- A cell survives the round trip when a carriage return in it forces
quoting; a bare CR in an otherwise unremarkable cell is written unquoted and
breaks re-parsing. -/
def okField (f : List Char) : Prop := '\r' ∈ f → needsQuote f = true

/-! Single-step equations of the reader, one per state/character class. -/

theorem step_sr_nl (R rest) : runCsv .startRecord [] R ('\n' :: rest) =
    (runCsv .startRecord [] [] rest).map (R :: ·) := by
  simp [runCsv]

theorem step_sr_comma (R rest) : runCsv .startRecord [] R (',' :: rest) =
    runCsv .startField [] (R ++ [[]]) rest := by
  simp [runCsv]

theorem step_sr_quote (R rest) : runCsv .startRecord [] R ('"' :: rest) =
    runCsv .inQuoted [] R rest := by
  simp [runCsv]

theorem step_sr_other {c : Char} (h1 : c ≠ '\n') (h2 : c ≠ '\r')
    (h3 : c ≠ ',') (h4 : c ≠ '"') (R rest) :
    runCsv .startRecord [] R (c :: rest) = runCsv .inField [c] R rest := by
  simp [runCsv, h1, h2, h3, h4]

theorem step_sf_nl (F R rest) : runCsv .startField F R ('\n' :: rest) =
    (runCsv .startRecord [] [] rest).map ((R ++ [F]) :: ·) := by
  simp [runCsv]

theorem step_sf_comma (F R rest) : runCsv .startField F R (',' :: rest) =
    runCsv .startField [] (R ++ [F]) rest := by
  simp [runCsv]

theorem step_sf_quote (F R rest) : runCsv .startField F R ('"' :: rest) =
    runCsv .inQuoted F R rest := by
  simp [runCsv]

theorem step_sf_other {c : Char} (h1 : c ≠ '\n') (h2 : c ≠ '\r')
    (h3 : c ≠ ',') (h4 : c ≠ '"') (F R rest) :
    runCsv .startField F R (c :: rest) = runCsv .inField [c] R rest := by
  simp [runCsv, h1, h2, h3, h4]

theorem step_if_nl (F R rest) : runCsv .inField F R ('\n' :: rest) =
    (runCsv .startRecord [] [] rest).map ((R ++ [F]) :: ·) := by
  simp [runCsv]

theorem step_if_comma (F R rest) : runCsv .inField F R (',' :: rest) =
    runCsv .startField [] (R ++ [F]) rest := by
  simp [runCsv]

theorem step_if_other {c : Char} (h1 : c ≠ '\n') (h2 : c ≠ '\r')
    (h3 : c ≠ ',') (F R rest) :
    runCsv .inField F R (c :: rest) = runCsv .inField (F ++ [c]) R rest := by
  simp [runCsv, h1, h2, h3]

theorem step_iq_quote (F R rest) : runCsv .inQuoted F R ('"' :: rest) =
    runCsv .quoteInQuoted F R rest := by
  simp [runCsv]

theorem step_iq_other {c : Char} (h : c ≠ '"') (F R rest) :
    runCsv .inQuoted F R (c :: rest) = runCsv .inQuoted (F ++ [c]) R rest := by
  simp [runCsv, h]

theorem step_qq_quote (F R rest) : runCsv .quoteInQuoted F R ('"' :: rest) =
    runCsv .inQuoted (F ++ ['"']) R rest := by
  simp [runCsv]

theorem step_qq_comma (F R rest) : runCsv .quoteInQuoted F R (',' :: rest) =
    runCsv .startField [] (R ++ [F]) rest := by
  simp [runCsv]

theorem step_qq_nl (F R rest) : runCsv .quoteInQuoted F R ('\n' :: rest) =
    (runCsv .startRecord [] [] rest).map ((R ++ [F]) :: ·) := by
  simp [runCsv]

theorem noSpecial_of_unquoted {f : List Char} (hq : needsQuote f = false)
    (hok : okField f) :
    ∀ c ∈ f, c ≠ ',' ∧ c ≠ '"' ∧ c ≠ '\n' ∧ c ≠ '\r' := by
  intro c hc
  have hcspec : (c = ',' || c = '"' || c = '\n') ≠ true := by
    intro hne
    have : needsQuote f = true := List.any_eq_true.mpr ⟨c, hc, hne⟩
    rw [this] at hq
    cases hq
  have hr : c ≠ '\r' := by
    intro hcr
    have : needsQuote f = true := hok (hcr ▸ hc)
    rw [this] at hq
    cases hq
  have h5 : ¬(c = ',' ∨ c = '"' ∨ c = '\n') := by
    intro hor
    apply hcspec
    rcases hor with h | h | h <;> simp [h]
  exact ⟨fun h => h5 (Or.inl h), fun h => h5 (Or.inr (Or.inl h)),
    fun h => h5 (Or.inr (Or.inr h)), hr⟩

theorem run_inField_plain :
    ∀ (f : List Char), (∀ c ∈ f, c ≠ ',' ∧ c ≠ '"' ∧ c ≠ '\n' ∧ c ≠ '\r') →
      ∀ (F : List Char) (R : List (List Char)) (rest : List Char),
        runCsv .inField F R (f ++ rest) = runCsv .inField (F ++ f) R rest := by
  intro f
  induction f with
  | nil => intro _ F R rest; rw [List.nil_append, List.append_nil]
  | cons c f ih =>
    intro hc F R rest
    obtain ⟨h1, h2, h3, h4⟩ := hc c (List.mem_cons_self c f)
    rw [List.cons_append, step_if_other h3 h4 h1,
      ih (fun d hd => hc d (List.mem_cons_of_mem c hd)), List.append_assoc]
    rfl

theorem escQuote_cons (c : Char) (f : List Char) :
    escQuote (c :: f) = (if c = '"' then ['"', '"'] else [c]) ++ escQuote f := by
  rfl

theorem run_inQuoted_esc :
    ∀ (f F : List Char) (R : List (List Char)) (rest : List Char),
      runCsv .inQuoted F R (escQuote f ++ '"' :: rest) =
        runCsv .quoteInQuoted (F ++ f) R rest := by
  intro f
  induction f with
  | nil =>
    intro F R rest
    rw [show escQuote [] = [] from rfl, List.nil_append, step_iq_quote,
      List.append_nil]
  | cons c f ih =>
    intro F R rest
    rw [escQuote_cons]
    by_cases hc : c = '"'
    · subst hc
      rw [if_pos rfl, List.append_assoc,
        show (['"', '"'] : List Char) ++ (escQuote f ++ '"' :: rest) =
          '"' :: '"' :: (escQuote f ++ '"' :: rest) from rfl,
        step_iq_quote, step_qq_quote, ih, List.append_assoc]
      rfl
    · rw [if_neg hc, List.append_assoc,
        show ([c] : List Char) ++ (escQuote f ++ '"' :: rest) =
          c :: (escQuote f ++ '"' :: rest) from rfl,
        step_iq_other hc, ih, List.append_assoc]
      rfl

end QSRE

namespace QSRE

theorem run_field_comma (f : List Char) (hok : okField f)
    (R : List (List Char)) (rest : List Char) :
    runCsv .startField [] R (writeField f ++ ',' :: rest) =
      runCsv .startField [] (R ++ [f]) rest := by
  by_cases hq : needsQuote f = true
  · rw [writeField, if_pos hq, List.cons_append, List.cons_append,
      List.append_assoc,
      show (['"'] : List Char) ++ ',' :: rest = '"' :: ',' :: rest from rfl,
      step_sf_quote, run_inQuoted_esc, List.nil_append, step_qq_comma]
  · have hq' : needsQuote f = false := by revert hq; cases needsQuote f <;> simp
    have hs := noSpecial_of_unquoted hq' hok
    rw [writeField, if_neg hq]
    cases f with
    | nil => rw [List.nil_append, step_sf_comma]
    | cons c f' =>
      obtain ⟨h1, h2, h3, h4⟩ := hs c (List.mem_cons_self c f')
      rw [List.cons_append, step_sf_other h3 h4 h1 h2,
        run_inField_plain f' (fun d hd => hs d (List.mem_cons_of_mem c hd)),
        step_if_comma]
      rfl

theorem run_field_nl (f : List Char) (hok : okField f)
    (R : List (List Char)) (rest : List Char) :
    runCsv .startField [] R (writeField f ++ '\n' :: rest) =
      (runCsv .startRecord [] [] rest).map ((R ++ [f]) :: ·) := by
  by_cases hq : needsQuote f = true
  · rw [writeField, if_pos hq, List.cons_append, List.cons_append,
      List.append_assoc,
      show (['"'] : List Char) ++ '\n' :: rest = '"' :: '\n' :: rest from rfl,
      step_sf_quote, run_inQuoted_esc, List.nil_append, step_qq_nl]
  · have hq' : needsQuote f = false := by revert hq; cases needsQuote f <;> simp
    have hs := noSpecial_of_unquoted hq' hok
    rw [writeField, if_neg hq]
    cases f with
    | nil => rw [List.nil_append, step_sf_nl]
    | cons c f' =>
      obtain ⟨h1, h2, h3, h4⟩ := hs c (List.mem_cons_self c f')
      rw [List.cons_append, step_sf_other h3 h4 h1 h2,
        run_inField_plain f' (fun d hd => hs d (List.mem_cons_of_mem c hd)),
        step_if_nl]
      rfl

theorem run_fields : ∀ (fs : List (List Char)), fs ≠ [] →
    (∀ f ∈ fs, okField f) → ∀ (R : List (List Char)) (rest : List Char),
      runCsv .startField [] R (joinComma (fs.map writeField) ++ '\n' :: rest) =
        (runCsv .startRecord [] [] rest).map ((R ++ fs) :: ·) := by
  intro fs
  induction fs with
  | nil => intro h; exact absurd rfl h
  | cons f fs ih =>
    intro _ hok R rest
    cases fs with
    | nil =>
      rw [show joinComma ([f].map writeField) = writeField f from rfl]
      exact run_field_nl f (hok f (List.mem_cons_self f [])) R rest
    | cons f' fs' =>
      rw [show joinComma ((f :: f' :: fs').map writeField) =
          writeField f ++ ',' :: joinComma ((f' :: fs').map writeField) from rfl,
        List.append_assoc,
        show (',' :: joinComma ((f' :: fs').map writeField)) ++ '\n' :: rest =
          ',' :: (joinComma ((f' :: fs').map writeField) ++ '\n' :: rest) from rfl,
        run_field_comma f (hok f (List.mem_cons_self f (f' :: fs'))),
        ih (by simp) (fun g hg => hok g (List.mem_cons_of_mem f hg)) (R ++ [f])
          rest, List.append_assoc]
      rfl

theorem run_sr_eq_sf {c : Char} (h1 : c ≠ '\n') (h2 : c ≠ '\r')
    (rest : List Char) :
    runCsv .startRecord [] [] (c :: rest) = runCsv .startField [] [] (c :: rest) := by
  by_cases h3 : c = ','
  · subst h3; rw [step_sr_comma, step_sf_comma]
  · by_cases h4 : c = '"'
    · subst h4; rw [step_sr_quote, step_sf_quote]
    · rw [step_sr_other h1 h2 h3 h4, step_sf_other h1 h2 h3 h4]

theorem writeField_eq_nil {f : List Char} (h : writeField f = []) : f = [] := by
  by_cases hq : needsQuote f = true
  · rw [writeField, if_pos hq] at h; cases h
  · rwa [writeField, if_neg hq] at h

theorem writeField_head_ok {f : List Char} (hok : okField f) (c : Char)
    (cs : List Char) (heq : writeField f = c :: cs) : c ≠ '\n' ∧ c ≠ '\r' := by
  by_cases hq : needsQuote f = true
  · rw [writeField, if_pos hq] at heq
    have hc : '"' = c := (List.cons.inj heq).1
    subst hc
    exact ⟨by decide, by decide⟩
  · have hq' : needsQuote f = false := by revert hq; cases needsQuote f <;> simp
    rw [writeField, if_neg hq] at heq
    have hcf : c ∈ f := by rw [heq]; exact List.mem_cons_self c cs
    obtain ⟨_, _, h3, h4⟩ := noSpecial_of_unquoted hq' hok c hcf
    exact ⟨h3, h4⟩

theorem joinComma_head (f : List Char) (fs : List (List Char))
    (hsp : ¬(f :: fs) = [[]]) (hok : ∀ g ∈ f :: fs, okField g) :
    ∃ c cs, joinComma ((f :: fs).map writeField) = c :: cs ∧
      c ≠ '\n' ∧ c ≠ '\r' := by
  cases fs with
  | nil =>
    have hf : f ≠ [] := fun h => hsp (by rw [h])
    rw [show joinComma ([f].map writeField) = writeField f from rfl]
    cases hwf : writeField f with
    | nil => exact absurd (writeField_eq_nil hwf) hf
    | cons c cs =>
      obtain ⟨h1, h2⟩ := writeField_head_ok (hok f (List.mem_cons_self f [])) c cs hwf
      exact ⟨c, cs, rfl, h1, h2⟩
  | cons f' fs' =>
    rw [show joinComma ((f :: f' :: fs').map writeField) =
      writeField f ++ ',' :: joinComma ((f' :: fs').map writeField) from rfl]
    cases hwf : writeField f with
    | nil =>
      rw [List.nil_append]
      exact ⟨',', _, rfl, by decide, by decide⟩
    | cons c cs =>
      obtain ⟨h1, h2⟩ :=
        writeField_head_ok (hok f (List.mem_cons_self f (f' :: fs'))) c cs hwf
      rw [List.cons_append]
      exact ⟨c, _, rfl, h1, h2⟩

theorem run_record (r : List (List Char)) (hok : ∀ f ∈ r, okField f)
    (rest : List Char) :
    runCsv .startRecord [] [] (writeRecord r ++ rest) =
      (runCsv .startRecord [] [] rest).map (r :: ·) := by
  by_cases hsp : r = [[]]
  · subst hsp
    rw [writeRecord, if_pos rfl,
      show (['"', '"', '\n'] : List Char) ++ rest = '"' :: '"' :: '\n' :: rest
        from rfl,
      step_sr_quote, step_iq_quote, step_qq_nl]
    rfl
  · cases r with
    | nil =>
      rw [writeRecord, if_neg hsp,
        show (joinComma (([] : List (List Char)).map writeField) ++ ['\n']) ++
          rest = '\n' :: rest from rfl, step_sr_nl]
    | cons f fs =>
      obtain ⟨c, cs, hj, hc1, hc2⟩ := joinComma_head f fs hsp hok
      rw [writeRecord, if_neg hsp, List.append_assoc,
        show (['\n'] : List Char) ++ rest = '\n' :: rest from rfl, hj,
        List.cons_append, run_sr_eq_sf hc1 hc2, ← List.cons_append, ← hj,
        run_fields (f :: fs) (by simp) hok [] rest]
      rfl

theorem run_writeRows : ∀ (rows : List (List (List Char))),
    (∀ r ∈ rows, ∀ f ∈ r, okField f) →
    runCsv .startRecord [] [] (writeRows rows) = .ok rows := by
  intro rows
  induction rows with
  | nil => intro _; rfl
  | cons r rows ih =>
    intro hok
    rw [show writeRows (r :: rows) = writeRecord r ++ writeRows rows from rfl,
      run_record r (hok r (List.mem_cons_self r rows)),
      ih (fun t ht f hf => hok t (List.mem_cons_of_mem r ht) f hf)]
    rfl

theorem needsQuote_iff (f : List Char) :
    needsQuote f = true ↔ (',' ∈ f ∨ '"' ∈ f ∨ '\n' ∈ f) := by
  rw [needsQuote, List.any_eq_true]
  constructor
  · rintro ⟨c, hc, hor⟩
    simp only [Bool.or_eq_true, decide_eq_true_eq] at hor
    rcases hor with (h | h) | h
    · exact Or.inl (h ▸ hc)
    · exact Or.inr (Or.inl (h ▸ hc))
    · exact Or.inr (Or.inr (h ▸ hc))
  · rintro (h | h | h)
    · exact ⟨',', h, by simp⟩
    · exact ⟨'"', h, by simp⟩
    · exact ⟨'\n', h, by simp⟩

theorem map_mk_data (row : List String) :
    (row.map String.data).map (fun f => (⟨f⟩ : String)) = row := by
  induction row with
  | nil => rfl
  | cons s t ih =>
    cases s
    rw [List.map_cons, List.map_cons, ih]

theorem map_map_mk_data (rows : List (List String)) :
    List.map (List.map fun f => (⟨f⟩ : String))
      (List.map (List.map String.data) rows) = rows := by
  induction rows with
  | nil => rfl
  | cons r t ih => rw [List.map_cons, List.map_cons, map_mk_data, ih]

/-- C4 (amended): serialize-then-reparse is the identity on every table whose
cells only contain a carriage return when they also contain a delimiter,
quote or line feed (so the writer quotes them) — in particular for all cells
with embedded commas, quotes or line feeds. -/
theorem claim_C4_roundtrip_amended (rows : List (List String))
    (hok : ∀ row ∈ rows, ∀ cell ∈ row, '\r' ∈ cell.data →
      (',' ∈ cell.data ∨ '"' ∈ cell.data ∨ '\n' ∈ cell.data)) :
    parseCsv (rows_to_csv_bytes rows) = .ok rows := by
  have hok' : ∀ r ∈ rows.map (List.map String.data), ∀ f ∈ r, okField f := by
    intro r hr f hf
    obtain ⟨row, hrow, rfl⟩ := List.mem_map.mp hr
    obtain ⟨cell, hcell, rfl⟩ := List.mem_map.mp hf
    intro hcr
    exact (needsQuote_iff _).mpr (hok row hrow cell hcell hcr)
  have hrun := run_writeRows (rows.map (List.map String.data)) hok'
  rw [parseCsv,
    show (rows_to_csv_bytes rows).data =
      writeRows (rows.map (List.map String.data)) from rfl, hrun]
  show Except.ok (List.map (List.map fun f => (⟨f⟩ : String))
    (List.map (List.map String.data) rows)) = Except.ok rows
  exact congrArg Except.ok (map_map_mk_data rows)

/-- C4 counterexample: the one-cell table `[["a\r"]]` — a header whose label
contains a bare carriage return — serializes to `a\r\n` unquoted, and
re-parsing yields `[["a"]]`, not the original table. -/
theorem claim_C4_counterexample :
    ¬ parseCsv (rows_to_csv_bytes [["a\r"]]) = Except.ok [["a\r"]] := by
  intro h
  rw [show parseCsv (rows_to_csv_bytes [["a\r"]]) =
    Except.ok ([["a"]] : List (List String)) from rfl] at h
  have h2 := Except.ok.inj h
  simp only [List.cons.injEq, and_true] at h2
  exact absurd h2 (by decide)

/-- C4 witness: a table with an embedded delimiter, an embedded quote and an
embedded line feed in its cells round-trips exactly. -/
theorem claim_C4_witness :
    parseCsv (rows_to_csv_bytes [["a,b", "c\"d"], ["e\nf", ""]]) =
      Except.ok [["a,b", "c\"d"], ["e\nf", ""]] :=
  claim_C4_roundtrip_amended [["a,b", "c\"d"], ["e\nf", ""]] (by decide)

end QSRE
